/-
Verification of the video assembly pipeline of RedditVideoMakerBot.

Shallow embedding of the functions in src/video_creation/background.py and
src/video_creation/final_video.py. Machine integers are modelled by Nat,
audio durations (Python floats obtained from ffmpeg.probe) by the rationals,
the file system by explicit structures recording which files are present,
and random draws by an explicit seed parameter.
-/
import Mathlib

/-!
Timing Calculator: background.py, get_start_and_end_times (lines 46-64).

The Python loop

    initialValue = 180
    while int(length_of_clip) <= int(video_length + initialValue):
        if initialValue == initialValue // 2:
            raise Exception("Your background is too short for this video length")
        else:
            initialValue //= 2
    random_time = randrange(initialValue, int(length_of_clip) - int(video_length))
    return random_time, random_time + video_length

is embedded as the recursive function find_margin below (the while loop on
initialValue), followed by the randrange draw. Note that for natural numbers
initialValue == initialValue // 2 holds exactly when initialValue = 0.
randrange(a, b) returns an integer in [a, b); we model the draw by a seed
parameter r, realised as a + r % (b - a), which attains exactly the values
of [a, b) as r ranges over the naturals.
-/

def find_margin (video_length length_of_clip margin : ℕ) : Option ℕ :=
  if length_of_clip ≤ video_length + margin then
    if margin = margin / 2 then none
    else find_margin video_length length_of_clip (margin / 2)
  else some margin
termination_by margin
decreasing_by omega

def get_start_and_end_times (video_length length_of_clip r : ℕ) : Option (ℕ × ℕ) :=
  match find_margin video_length length_of_clip 180 with
  | none => none
  | some margin =>
    let random_time := margin + r % (length_of_clip - video_length - margin)
    some (random_time, random_time + video_length)

lemma find_margin_none (v l : ℕ) (h : l ≤ v) : ∀ m, find_margin v l m = none := by
  intro m
  induction m using Nat.strong_induction_on with
  | _ m ih =>
    rw [find_margin]
    have hc : l ≤ v + m := le_trans h (Nat.le_add_right v m)
    rw [if_pos hc]
    by_cases hm : m = m / 2
    · rw [if_pos hm]
    · rw [if_neg hm]
      exact ih (m / 2) (by omega)

lemma find_margin_some_lt (v l : ℕ) : ∀ m m', find_margin v l m = some m' → v + m' < l := by
  intro m
  induction m using Nat.strong_induction_on with
  | _ m ih =>
    intro m' hm'
    rw [find_margin] at hm'
    by_cases hc : l ≤ v + m
    · rw [if_pos hc] at hm'
      by_cases hm : m = m / 2
      · rw [if_pos hm] at hm'; exact absurd hm' (by simp)
      · rw [if_neg hm] at hm'
        exact ih (m / 2) (by omega) m' hm'
    · rw [if_neg hc] at hm'
      have : m = m' := by injection hm'
      omega

lemma find_margin_isSome (v l : ℕ) (h : v < l) : ∀ m, (find_margin v l m).isSome := by
  intro m
  induction m using Nat.strong_induction_on with
  | _ m ih =>
    rw [find_margin]
    by_cases hc : l ≤ v + m
    · rw [if_pos hc]
      by_cases hm : m = m / 2
      · exfalso; omega
      · rw [if_neg hm]
        exact ih (m / 2) (by omega)
    · rw [if_neg hc]; rfl

lemma find_margin_45_200 : find_margin 45 200 180 = some 90 := by
  rw [find_margin]; norm_num
  rw [find_margin]; norm_num

/-- Claim C2: whenever get_start_and_end_times returns a pair (start, end),
it satisfies 0 ≤ start, end = start + video_length, and end ≤ length_of_clip;
and it fails with the background-too-short error (returns none) exactly when
the source clip is not longer than the required video length. -/
theorem C2_window_bounds (v l r : ℕ) :
    (∀ s e, get_start_and_end_times v l r = some (s, e) →
      0 ≤ s ∧ e = s + v ∧ e ≤ l)
    ∧ (get_start_and_end_times v l r = none ↔ l ≤ v) := by
  constructor
  · intro s e hse
    unfold get_start_and_end_times at hse
    cases hfm : find_margin v l 180 with
    | none => rw [hfm] at hse; exact absurd hse (by simp)
    | some m =>
      rw [hfm] at hse
      simp only [Option.some.injEq, Prod.mk.injEq] at hse
      have hlt : v + m < l := find_margin_some_lt v l 180 m hfm
      have hmod : r % (l - v - m) < l - v - m := Nat.mod_lt _ (by omega)
      omega
  · constructor
    · intro hnone
      by_contra hvl
      have h : v < l := by omega
      have := find_margin_isSome v l h 180
      unfold get_start_and_end_times at hnone
      cases hfm : find_margin v l 180 with
      | none => rw [hfm] at this; exact absurd this (by simp)
      | some m => rw [hfm] at hnone; exact absurd hnone (by simp)
    · intro hle
      unfold get_start_and_end_times
      rw [find_margin_none v l hle 180]

theorem C2_window_bounds_witness :
    ((0 ≤ 90 ∧ 135 = 90 + 45 ∧ 135 ≤ 200)
      ∧ (get_start_and_end_times 45 200 0 = none ↔ 200 ≤ 45)) :=
  ⟨(C2_window_bounds 45 200 0).1 90 135
      (by rw [get_start_and_end_times, find_margin_45_200]),
   (C2_window_bounds 45 200 0).2⟩

/-- Claim C3, counterexample: for source length 200 and output length 45 the
margin halving does not stop at 45 and no seed yields start = 45, because the
loop already exits at margin 90 (200 > 45 + 90): the window (45, 90) is never
produced. -/
theorem C3_margin_counterexample :
    get_start_and_end_times 45 200 0 = some (90, 135)
    ∧ find_margin 45 200 180 ≠ some 45
    ∧ ¬ (∃ r, get_start_and_end_times 45 200 r = some (45, 90)) := by
  refine ⟨by rw [get_start_and_end_times, find_margin_45_200], ?_, ?_⟩
  · rw [find_margin_45_200]; simp
  · rintro ⟨r, hr⟩
    rw [get_start_and_end_times, find_margin_45_200] at hr
    simp only [Option.some.injEq, Prod.mk.injEq] at hr
    omega

/-- Claim C3, amended: for a source asset of length 200 and required output
length 45, the margin halving stops at margin 90 (the first margin for which
200 > 45 + margin holds, since 45 + 90 = 135 < 200), and the returned start
ranges over exactly the interval from 90 inclusive to 155 exclusive: every
returned start lies in that interval, and for every integer s in it there is a
seed for which start = s. -/
theorem C3_margin_90_range :
    find_margin 45 200 180 = some 90
    ∧ (∀ r s e, get_start_and_end_times 45 200 r = some (s, e) →
        90 ≤ s ∧ s < 155 ∧ e = s + 45)
    ∧ (∀ s, 90 ≤ s → s < 155 →
        get_start_and_end_times 45 200 (s - 90) = some (s, s + 45)) := by
  refine ⟨find_margin_45_200, ?_, ?_⟩
  · intro r s e hse
    rw [get_start_and_end_times, find_margin_45_200] at hse
    simp only [Option.some.injEq, Prod.mk.injEq] at hse
    have hmod : r % (200 - 45 - 90) < 65 := Nat.mod_lt _ (by omega)
    omega
  · intro s hs1 hs2
    rw [get_start_and_end_times, find_margin_45_200]
    have hmod : (s - 90) % (200 - 45 - 90) = s - 90 :=
      Nat.mod_eq_of_lt (by omega)
    simp only [hmod]
    have h90 : 90 + (s - 90) = s := by omega
    rw [h90]

theorem C3_margin_90_range_witness :
    get_start_and_end_times 45 200 10 = some (100, 145) := by
  have h := C3_margin_90_range.2.2 100 (by norm_num) (by norm_num)
  simpa using h

/-!
Audio Assembler: final_video.py, _assemble_concatenated_audio (lines 295-376).

The on-disk fixture set is modelled by AudioFS: each field gives the duration
(as probed by ffmpeg.probe) of a file when it is present, none when it is
absent. The function returns the list audio_clips_durations; the ffmpeg
concatenation run itself (an external process) is outside the model. The
title clip is mandatory (FileNotFoundError when absent); in comment mode and
storymode method 1 a missing optional clip appends the placeholder 0.0 to the
duration list, while in storymode method 0 a missing postaudio.mp3 appends
nothing at all. The late ValueError branch of the source fires only when the
collected ffmpeg input list is empty, which cannot happen because the title
clip is always appended first; it is reproduced faithfully below.
-/

structure AudioFS where
  title : Option ℚ
  postaudio : Option ℚ
  postaudio_seg : ℕ → Option ℚ
  comment : ℕ → Option ℚ

def audio_tail (fs : AudioFS) (num_comment_clips : ℕ)
    (is_storymode : Bool) (storymode_method : ℕ) : List ℚ :=
  if is_storymode then
    if storymode_method = 0 then
      match fs.postaudio with
      | some d => [d]
      | none => []
    else if storymode_method = 1 then
      (List.range (num_comment_clips + 1)).map (fun i => (fs.postaudio_seg i).getD 0)
    else []
  else
    (List.range num_comment_clips).map (fun i => (fs.comment i).getD 0)

def present_clip_count (fs : AudioFS) (num_comment_clips : ℕ)
    (is_storymode : Bool) (storymode_method : ℕ) : ℕ :=
  if is_storymode then
    if storymode_method = 0 then
      if fs.postaudio.isSome then 1 else 0
    else if storymode_method = 1 then
      ((List.range (num_comment_clips + 1)).filter
        (fun i => (fs.postaudio_seg i).isSome)).length
    else 0
  else
    ((List.range num_comment_clips).filter (fun i => (fs.comment i).isSome)).length

def assemble_concatenated_audio (fs : AudioFS) (num_comment_clips : ℕ)
    (is_storymode : Bool) (storymode_method : ℕ) : Except String (List ℚ) :=
  match fs.title with
  | none => Except.error "Required title audio not found"
  | some title_dur =>
    let durations := title_dur ::
      audio_tail fs num_comment_clips is_storymode storymode_method
    let inputs_count := 1 +
      present_clip_count fs num_comment_clips is_storymode storymode_method
    if inputs_count = 0 ∨ (inputs_count ≤ 1 ∧ 0 < num_comment_clips) then
      if inputs_count ≤ 1 ∧ (0 < num_comment_clips ∨ is_storymode = true) then
        Except.ok durations
      else if inputs_count = 0 then
        Except.error "No audio clips available for concatenation."
      else Except.ok durations
    else Except.ok durations

lemma assemble_ok (fs : AudioFS) (n : ℕ) (sm : Bool) (method : ℕ)
    (td : ℚ) (h : fs.title = some td) :
    assemble_concatenated_audio fs n sm method =
      Except.ok (td :: audio_tail fs n sm method) := by
  simp only [assemble_concatenated_audio, h]
  split
  · split
    · rfl
    · rw [if_neg (by omega : ¬ (1 + present_clip_count fs n sm method = 0))]
  · rfl

lemma assemble_error_iff (fs : AudioFS) (n : ℕ) (sm : Bool) (method : ℕ) :
    (∃ msg, assemble_concatenated_audio fs n sm method = Except.error msg)
      ↔ fs.title = none := by
  constructor
  · rintro ⟨msg, hmsg⟩
    cases ht : fs.title with
    | none => rfl
    | some td =>
      rw [assemble_ok fs n sm method td ht] at hmsg
      exact absurd hmsg (by simp)
  · intro ht
    refine ⟨"Required title audio not found", ?_⟩
    unfold assemble_concatenated_audio
    rw [ht]

/-- Claim C4, counterexample: in storymode method 0 with segment count 1
(title plus one postaudio segment) and the optional postaudio.mp3 missing,
the duration list is just [title duration], of length 1 rather than 2: the
missing optional clip is recorded by appending nothing, not by a 0.0 entry. -/
theorem C4_assemble_counterexample :
    assemble_concatenated_audio
      { title := some 2, postaudio := none,
        postaudio_seg := fun _ => none, comment := fun _ => none }
      1 true 0 = Except.ok [2]
    ∧ ¬ (∃ ds, assemble_concatenated_audio
          { title := some 2, postaudio := none,
            postaudio_seg := fun _ => none, comment := fun _ => none }
          1 true 0 = Except.ok ds ∧ ds.length = 1 + 1) := by
  have hok : assemble_concatenated_audio
      { title := some 2, postaudio := none,
        postaudio_seg := fun _ => none, comment := fun _ => none }
      1 true 0 = Except.ok [2] := by
    rw [assemble_ok _ 1 true 0 2 rfl]
    rfl
  refine ⟨hok, ?_⟩
  rintro ⟨ds, hds, hlen⟩
  rw [hok] at hds
  simp only [Except.ok.injEq] at hds
  rw [← hds] at hlen
  simp at hlen

/-- Claim C4, amended: the assembler raises exactly when title.mp3 is absent,
in every mode. In comment mode with n comments the duration list has length
n + 1, starts with the probed title duration, and records each missing
optional clip as exactly 0.0; the same holds in storymode method 1 with
n + 1 story segments (list length n + 2). In storymode method 0, however, a
missing optional postaudio.mp3 contributes no entry at all: the list is
[title duration] of length 1, with no 0.0 placeholder. -/
theorem C4_assemble_durations :
    (∀ fs n sm method,
      (∃ msg, assemble_concatenated_audio fs n sm method = Except.error msg)
        ↔ fs.title = none)
    ∧ (∀ (fs : AudioFS) n method td, fs.title = some td →
        ∃ ds, assemble_concatenated_audio fs n false method = Except.ok ds
          ∧ ds.length = n + 1
          ∧ ds[0]? = some td
          ∧ (∀ i, i < n → fs.comment i = none → ds[i + 1]? = some 0)
          ∧ (∀ i d, i < n → fs.comment i = some d → ds[i + 1]? = some d))
    ∧ (∀ (fs : AudioFS) n td, fs.title = some td →
        ∃ ds, assemble_concatenated_audio fs n true 1 = Except.ok ds
          ∧ ds.length = (n + 1) + 1
          ∧ ds[0]? = some td
          ∧ (∀ i, i < n + 1 → fs.postaudio_seg i = none → ds[i + 1]? = some 0)
          ∧ (∀ i d, i < n + 1 → fs.postaudio_seg i = some d → ds[i + 1]? = some d))
    ∧ (∀ (fs : AudioFS) n td, fs.title = some td → fs.postaudio = none →
        assemble_concatenated_audio fs n true 0 = Except.ok [td])
    ∧ (∀ (fs : AudioFS) n td d, fs.title = some td → fs.postaudio = some d →
        assemble_concatenated_audio fs n true 0 = Except.ok [td, d]) := by
  refine ⟨assemble_error_iff, ?_, ?_, ?_, ?_⟩
  · intro fs n method td ht
    refine ⟨td :: audio_tail fs n false method, assemble_ok fs n false method td ht,
      ?_, by simp, ?_, ?_⟩
    · simp [audio_tail]
    · intro i hi hmiss
      simp [audio_tail, List.getElem?_map, List.getElem?_range, hi, hmiss]
    · intro i d hi hd
      simp [audio_tail, List.getElem?_map, List.getElem?_range, hi, hd]
  · intro fs n td ht
    refine ⟨td :: audio_tail fs n true 1, assemble_ok fs n true 1 td ht,
      ?_, by simp, ?_, ?_⟩
    · simp [audio_tail]
    · intro i hi hmiss
      simp [audio_tail, List.getElem?_map, List.getElem?_range, hi, hmiss]
    · intro i d hi hd
      simp [audio_tail, List.getElem?_map, List.getElem?_range, hi, hd]
  · intro fs n td ht hpost
    rw [assemble_ok fs n true 0 td ht]
    simp [audio_tail, hpost]
  · intro fs n td d ht hpost
    rw [assemble_ok fs n true 0 td ht]
    simp [audio_tail, hpost]

theorem C4_assemble_durations_witness :
    ∃ ds, assemble_concatenated_audio
      { title := some 2, postaudio := none, postaudio_seg := fun _ => none,
        comment := fun i => if i = 0 then some 3 else none }
      2 false 0 = Except.ok ds
      ∧ ds.length = 2 + 1
      ∧ ds[0]? = some 2
      ∧ (∀ i, i < 2 → (if i = 0 then some (3:ℚ) else none) = none → ds[i + 1]? = some 0)
      ∧ (∀ i d, i < 2 → (if i = 0 then some (3:ℚ) else none) = some d → ds[i + 1]? = some d) :=
  C4_assemble_durations.2.1
    { title := some 2, postaudio := none, postaudio_seg := fun _ => none,
      comment := fun i => if i = 0 then some 3 else none }
    2 0 2 rfl

/-!
Image Sequence Builder: final_video.py, _prepare_image_sequence_for_video
(lines 378-430). A visual layer is identified by the image file it was built
from (the ffmpeg scale filter applied to each stream carries no information
relevant to the claims, so a layer is represented by its source image). The
title image stream is always appended first; a missing optional image is
skipped, appending nothing (no placeholder), unlike the audio durations.
-/

inductive Layer where
  | title : Layer
  | story_content : Layer
  | story : ℕ → Layer
  | comment : ℕ → Layer
deriving DecidableEq, Repr

structure ImageFS where
  comment_img : ℕ → Bool
  story_img : ℕ → Bool
  story_content_img : Bool

def prepare_image_sequence_for_video (fs : ImageFS) (num_comment_clips : ℕ)
    (is_storymode : Bool) (storymode_method : ℕ) : List Layer :=
  Layer.title ::
    (if is_storymode then
      if storymode_method = 0 then
        if fs.story_content_img then [Layer.story_content] else []
      else if storymode_method = 1 then
        (List.range (num_comment_clips + 1)).filterMap
          (fun i => if fs.story_img i then some (Layer.story i) else none)
      else []
    else
      (List.range num_comment_clips).filterMap
        (fun i => if fs.comment_img i then some (Layer.comment i) else none))

/-!
Overlay Compositor: final_video.py, _apply_overlays_to_background
(lines 433-478). The ffmpeg filter graph built by the loop is represented by
the ordered list of overlay operations attached to the background stream:
for each processed aligned pair the loop records which layer was overlaid,
its loop index i, whether the colorchannelmixer alpha filter was applied
(exactly when i > 0 and opacity < 1.0), and the enable window
between(t, current_time, current_time + duration). The loop walks
min(len(layers), len(durations)) pairs, that is, the zip of the two lists;
a pair with duration ≤ 0 is skipped without advancing current_time. An empty
operation list means the background stream is returned unchanged.
-/

structure OverlayOp where
  layer : Layer
  index : ℕ
  alpha_scaled : Bool
  start : ℚ
  stop : ℚ
deriving DecidableEq, Repr

def overlay_loop (opacity : ℚ) : ℕ → ℚ → List (Layer × ℚ) → List OverlayOp
  | _, _, [] => []
  | i, current_time, (layer, duration) :: rest =>
    if duration ≤ 0 then
      overlay_loop opacity (i + 1) current_time rest
    else
      { layer := layer, index := i,
        alpha_scaled := decide (0 < i ∧ opacity < 1),
        start := current_time, stop := current_time + duration }
        :: overlay_loop opacity (i + 1) (current_time + duration) rest

def apply_overlays_to_background (image_streams : List Layer)
    (audio_clips_durations : List ℚ) (opacity : ℚ) : List OverlayOp :=
  overlay_loop opacity 0 0 (image_streams.zip audio_clips_durations)

def overlay_windows : ℚ → List ℚ → List (ℚ × ℚ)
  | _, [] => []
  | t, d :: ds => (t, t + d) :: overlay_windows (t + d) ds

lemma overlay_loop_map_windows (opacity : ℚ) :
    ∀ (ps : List (Layer × ℚ)) (i : ℕ) (t : ℚ),
      (overlay_loop opacity i t ps).map (fun o => (o.start, o.stop))
        = overlay_windows t
            ((ps.map Prod.snd).filter (fun d => !decide (d ≤ 0))) := by
  intro ps
  induction ps with
  | nil => intro i t; rfl
  | cons p rest ih =>
    intro i t
    obtain ⟨l, d⟩ := p
    by_cases hd : d ≤ 0
    · rw [overlay_loop, if_pos hd, ih (i + 1) t]
      simp [List.filter_cons, hd]
    · rw [overlay_loop, if_neg hd]
      simp only [List.map_cons]
      rw [ih (i + 1) (t + d)]
      simp [List.filter_cons, hd, overlay_windows]

lemma overlay_windows_chain (ds : List ℚ) :
    ∀ t, List.Chain' (fun w1 w2 => w1.2 = w2.1) (overlay_windows t ds) := by
  induction ds with
  | nil => intro t; simp [overlay_windows]
  | cons d ds2 ih =>
    intro t
    rw [overlay_windows, List.chain'_cons']
    refine ⟨?_, ih (t + d)⟩
    intro b hb
    cases ds2 with
    | nil => simp [overlay_windows] at hb
    | cons d2 ds3 =>
      rw [overlay_windows] at hb
      simp only [List.head?_cons, Option.mem_def, Option.some.injEq] at hb
      rw [← hb]

/-- Claim C5: the enable windows of the overlays produced by the compositor
are exactly the consecutive intervals laid out by the cumulative sums of the
positive durations of the aligned prefix, starting at 0 — contiguous and
non-overlapping, each window ending where the next begins; an aligned pair
with non-positive duration emits no overlay and does not advance the running
time, so it contributes no window and shifts no later window. -/
theorem C5_overlay_windows_partition (layers : List Layer)
    (durations : List ℚ) (opacity : ℚ) :
    (apply_overlays_to_background layers durations opacity).map
        (fun o => (o.start, o.stop))
      = overlay_windows 0
          (((layers.zip durations).map Prod.snd).filter (fun d => !decide (d ≤ 0)))
    ∧ List.Chain' (fun w1 w2 => w1.2 = w2.1)
        ((apply_overlays_to_background layers durations opacity).map
          (fun o => (o.start, o.stop))) := by
  have h := overlay_loop_map_windows opacity (layers.zip durations) 0 0
  refine ⟨h, ?_⟩
  rw [apply_overlays_to_background, h]
  exact overlay_windows_chain _ 0

lemma overlay_loop_alpha (opacity : ℚ) :
    ∀ (ps : List (Layer × ℚ)) (i : ℕ) (t : ℚ) (o : OverlayOp),
      o ∈ overlay_loop opacity i t ps →
        o.alpha_scaled = decide (0 < o.index ∧ opacity < 1) := by
  intro ps
  induction ps with
  | nil => intro i t o ho; simp [overlay_loop] at ho
  | cons p rest ih =>
    intro i t o ho
    obtain ⟨l, d⟩ := p
    rw [overlay_loop] at ho
    by_cases hd : d ≤ 0
    · rw [if_pos hd] at ho
      exact ih (i + 1) t o ho
    · rw [if_neg hd] at ho
      rcases List.mem_cons.mp ho with h | h
      · rw [h]
      · exact ih (i + 1) (t + d) o h

/-- Claim C8: an overlaid layer is alpha-scaled (colorchannelmixer with
aa = opacity) exactly when its loop index i is positive and opacity < 1.0;
in the scenario with opacity 0.5 and two non-title layers, both non-title
layers are alpha-scaled while the title layer at index 0 is not. -/
theorem C8_alpha_scaling :
    (∀ (layers : List Layer) (durations : List ℚ) (opacity : ℚ),
      ∀ o ∈ apply_overlays_to_background layers durations opacity,
        (o.alpha_scaled = true ↔ (0 < o.index ∧ opacity < 1)))
    ∧ (apply_overlays_to_background
        [Layer.title, Layer.comment 0, Layer.comment 1]
        [2, 3, 4] (1 / 2)).map (fun o => o.alpha_scaled)
      = [false, true, true] := by
  constructor
  · intro layers durations opacity o ho
    rw [overlay_loop_alpha opacity (layers.zip durations) 0 0 o ho]
    simp [decide_eq_true_eq]
  · norm_num [apply_overlays_to_background, overlay_loop]

theorem C8_alpha_scaling_witness :
    (({ layer := Layer.comment 0, index := 1, alpha_scaled := true,
        start := 2, stop := 5 } : OverlayOp).alpha_scaled = true
      ↔ (0 < 1 ∧ (1 / 2 : ℚ) < 1)) :=
  C8_alpha_scaling.1 [Layer.title, Layer.comment 0, Layer.comment 1]
    [2, 3, 4] (1 / 2)
    { layer := Layer.comment 0, index := 1, alpha_scaled := true,
      start := 2, stop := 5 }
    (by norm_num [apply_overlays_to_background, overlay_loop])

lemma overlay_loop_nil_of_nonpos (opacity : ℚ) :
    ∀ (ps : List (Layer × ℚ)) (i : ℕ) (t : ℚ),
      (∀ d ∈ ps.map Prod.snd, d ≤ 0) → overlay_loop opacity i t ps = [] := by
  intro ps
  induction ps with
  | nil => intro i t _; rfl
  | cons p rest ih =>
    intro i t hall
    obtain ⟨l, d⟩ := p
    have hd : d ≤ 0 := hall d (by simp)
    rw [overlay_loop, if_pos hd]
    exact ih (i + 1) t (fun x hx => hall x (by simp [hx]))

/-- Claim C10: with an empty visual-layer list, or when every duration in
the aligned prefix of the two lists is non-positive, the compositor attaches
no overlay, opacity, or timing filter: the operation list is empty and the
background stream is returned unchanged. -/
theorem C10_no_overlays (layers : List Layer) (durations : List ℚ)
    (opacity : ℚ) :
    apply_overlays_to_background [] durations opacity = []
    ∧ ((∀ d ∈ (layers.zip durations).map Prod.snd, d ≤ 0) →
        apply_overlays_to_background layers durations opacity = []) := by
  constructor
  · rfl
  · intro hall
    exact overlay_loop_nil_of_nonpos opacity (layers.zip durations) 0 0 hall

theorem C10_no_overlays_witness :
    apply_overlays_to_background [Layer.title, Layer.comment 0] [0, -1] 1 = [] :=
  (C10_no_overlays [Layer.title, Layer.comment 0] [0, -1] 1).2 (by norm_num)

/-!
Round-trip fixture for the comment-mode scenario of the spec: title audio
present (duration 2), comment audio 0 and 2 present (durations 3 and 5),
comment audio 1 missing, and all three comment images present (only the
audio of comment 1 is missing).
-/

def audio_fs_c1 : AudioFS :=
  { title := some 2, postaudio := none, postaudio_seg := fun _ => none,
    comment := fun i => if i = 0 then some 3 else if i = 2 then some 5 else none }

def image_fs_c1 : ImageFS :=
  { comment_img := fun i => decide (i < 3), story_img := fun _ => false,
    story_content_img := false }

/-- Claim C1, counterexample: on the fixture where only the audio of comment
index 1 is missing, the image sequence still contains all four layers
(title, c0, c1, c2), because the image of comment 1 is present; it is not the
three-element list [title, c0, c2] the claim asserts, and the compositor
walks min(4, 4) = 4 aligned pairs, not 3. -/
theorem C1_round_trip_counterexample :
    prepare_image_sequence_for_video image_fs_c1 3 false 0
      = [Layer.title, Layer.comment 0, Layer.comment 1, Layer.comment 2]
    ∧ prepare_image_sequence_for_video image_fs_c1 3 false 0
      ≠ [Layer.title, Layer.comment 0, Layer.comment 2] := by
  constructor
  · decide
  · decide

/-- Claim C1, amended: on the fixture of 4 segments where only the audio of
comment index 1 is missing, the assembler returns durations
[title_dur, c0_dur, 0.0, c2_dur], the image sequence is
[title, c0, c1, c2] (4 layers, the image of comment 1 being present), and
the compositor iterates min(4, 4) = 4 aligned pairs, skipping the
zero-duration pair at index 2 at its aligned position without advancing the
running time, so the comment-2 layer is overlaid for its own duration in the
window starting at title_dur + c0_dur. -/
theorem C1_round_trip_aligned :
    assemble_concatenated_audio audio_fs_c1 3 false 0 = Except.ok [2, 3, 0, 5]
    ∧ prepare_image_sequence_for_video image_fs_c1 3 false 0
        = [Layer.title, Layer.comment 0, Layer.comment 1, Layer.comment 2]
    ∧ apply_overlays_to_background
        (prepare_image_sequence_for_video image_fs_c1 3 false 0) [2, 3, 0, 5] 1
      = [{ layer := Layer.title, index := 0, alpha_scaled := false,
           start := 0, stop := 2 },
         { layer := Layer.comment 0, index := 1, alpha_scaled := false,
           start := 2, stop := 5 },
         { layer := Layer.comment 2, index := 3, alpha_scaled := false,
           start := 5, stop := 10 }] := by
  refine ⟨?_, by decide, ?_⟩
  · rw [assemble_ok audio_fs_c1 3 false 0 2 rfl]
    norm_num [audio_tail, audio_fs_c1, List.range_succ]
  · norm_num [apply_overlays_to_background, overlay_loop,
      prepare_image_sequence_for_video, image_fs_c1]

/-!
Progress Tracker: final_video.py, ProgressFfmpeg (lines 49-149).

The progress file written by ffmpeg is modelled as the list of its lines
(the result of readlines). The per-poll computation of the run loop
(lines 69-77) is embedded as progress_poll: it returns some ratio exactly
when the update callback would be invoked with that ratio. The line parser
_get_latest_ms_progress (lines 83-126) scans the lines in reverse and
returns on the first line that contains "out_time_ms", splits on "=" into
more than one part, and whose stripped second part is numeric; every other
line — including out_time_ms=N/A — falls through and the scan continues.
Python string primitives (in, split, strip, isnumeric, float) are embedded
on the character list of the line; out_time_ms is a microsecond count, so
the numeric value is divided by 1,000,000 to obtain seconds.
-/

def py_is_space (c : Char) : Bool :=
  c = ' ' || c = '\t' || c = '\n' || c = '\r' || c = '\x0b' || c = '\x0c'

def py_strip (cs : List Char) : List Char :=
  ((cs.dropWhile py_is_space).reverse.dropWhile py_is_space).reverse

def py_isnumeric (cs : List Char) : Bool :=
  !cs.isEmpty && cs.all Char.isDigit

def py_split_on (sep : Char) : List Char → List (List Char)
  | [] => [[]]
  | c :: rest =>
    let r := py_split_on sep rest
    if c = sep then [] :: r
    else
      match r with
      | [] => [[c]]
      | h :: t => (c :: h) :: t

def py_has_sub (pat : List Char) : List Char → Bool
  | [] => pat.isEmpty
  | c :: rest => pat.isPrefixOf (c :: rest) || py_has_sub pat rest

def digits_to_nat (cs : List Char) : ℕ :=
  cs.foldl (fun acc c => 10 * acc + (c.toNat - 48)) 0

def parse_out_time_line (line : String) : Option ℕ :=
  let cs := line.data
  if py_has_sub "out_time_ms".data cs then
    let parts := py_split_on '=' cs
    if 1 < parts.length then
      let v := py_strip (parts.getD 1 [])
      if py_isnumeric v then some (digits_to_nat v)
      else none
    else none
  else none

def get_latest_ms_progress (lines : List String) : Option ℚ :=
  lines.reverse.findSome?
    (fun line => (parse_out_time_line line).map (fun n => (n : ℚ) / 1000000))

def progress_poll (lines : List String) (vid_duration_seconds : ℚ) : Option ℚ :=
  match get_latest_ms_progress lines with
  | some latest_progress_sec =>
    if 0 < vid_duration_seconds then
      some (min (latest_progress_sec / vid_duration_seconds) 1)
    else none
  | none => none

lemma get_latest_nonneg (lines : List String) (p : ℚ)
    (h : get_latest_ms_progress lines = some p) : 0 ≤ p := by
  obtain ⟨line, _, hline⟩ := List.exists_of_findSome?_eq_some h
  cases hp : parse_out_time_line line with
  | none => rw [hp] at hline; exact absurd hline (by simp)
  | some n =>
    rw [hp] at hline
    simp at hline
    rw [← hline]
    positivity

/-- Claim C6: each poll invokes the callback exactly when some line carries a
numeric out_time_ms value and the total duration is positive, and then the
ratio passed — the microsecond value converted to seconds, divided by the
total duration, clamped — always lies in [0, 1]; scanning is in reverse, so
a final line without a numeric value (such as out_time_ms=N/A) is skipped
and an earlier numeric value still wins, while a final numeric line wins
outright. -/
theorem C6_progress_ratio :
    (∀ (lines : List String) (d ratio : ℚ),
      progress_poll lines d = some ratio →
        0 < d ∧ (get_latest_ms_progress lines).isSome
          ∧ 0 ≤ ratio ∧ ratio ≤ 1)
    ∧ (∀ (lines : List String) (bad : String),
        parse_out_time_line bad = none →
          get_latest_ms_progress (lines ++ [bad]) = get_latest_ms_progress lines)
    ∧ (∀ (lines : List String) (good : String) (n : ℕ),
        parse_out_time_line good = some n →
          get_latest_ms_progress (lines ++ [good]) = some ((n : ℚ) / 1000000)) := by
  refine ⟨?_, ?_, ?_⟩
  · intro lines d ratio hpoll
    unfold progress_poll at hpoll
    cases hg : get_latest_ms_progress lines with
    | none => rw [hg] at hpoll; exact absurd hpoll (by simp)
    | some p =>
      rw [hg] at hpoll
      dsimp only at hpoll
      by_cases hd : 0 < d
      · rw [if_pos hd] at hpoll
        simp only [Option.some.injEq] at hpoll
        have hp : 0 ≤ p := get_latest_nonneg lines p hg
        refine ⟨hd, rfl, ?_, ?_⟩
        · rw [← hpoll]
          exact le_min (by positivity) (by norm_num)
        · rw [← hpoll]
          exact min_le_right _ _
      · rw [if_neg hd] at hpoll
        exact absurd hpoll (by simp)
  · intro lines bad hbad
    unfold get_latest_ms_progress
    rw [List.reverse_append]
    simp [List.findSome?_cons, hbad]
  · intro lines good n hgood
    unfold get_latest_ms_progress
    rw [List.reverse_append]
    simp [List.findSome?_cons, hgood]

theorem C6_progress_ratio_witness :
    0 < (2 : ℚ)
    ∧ (get_latest_ms_progress
        ["frame=10", "out_time_ms=500000", "out_time_ms=N/A"]).isSome
    ∧ 0 ≤ (1 / 4 : ℚ) ∧ (1 / 4 : ℚ) ≤ 1 := by
  have h1 : parse_out_time_line "out_time_ms=N/A" = none := by decide
  have h2 : parse_out_time_line "out_time_ms=500000" = some 500000 := by decide
  refine C6_progress_ratio.1
    ["frame=10", "out_time_ms=500000", "out_time_ms=N/A"] 2 (1 / 4) ?_
  unfold progress_poll get_latest_ms_progress
  simp only [List.reverse_cons, List.reverse_nil, List.nil_append,
    List.cons_append, List.findSome?_cons, h1, h2, Option.map_some,
    Option.map_none]
  norm_num

/-!
ProgressFfmpeg.stop (final_video.py, lines 128-142). The state of a tracker
instance is its stop event flag and its output_file reference (none once
cleared); the disk is the list of file paths currently present. stop sets
the stop event, and if the file reference is still held it closes the
handle, removes the file from disk when it exists (errors during removal
are caught and only logged, and removing a file absent from disk is a
no-op, modelled by the filter), and clears the reference. The model is
total: no input state raises.
-/

structure ProgressFfmpeg where
  stop_event : Bool
  output_file : Option String
deriving DecidableEq, Repr

def ProgressFfmpeg.stop (st : ProgressFfmpeg) (disk : List String) :
    ProgressFfmpeg × List String :=
  match st.output_file with
  | none => ({ st with stop_event := true }, disk)
  | some name =>
    ({ stop_event := true, output_file := none },
      disk.filter (fun f => decide (f ≠ name)))

/-- Claim C7: stop is idempotent and always safe: it sets the stop event,
clears the file reference, removes the tracked temporary file from disk (so
after the first completed call no progress file remains), succeeds on every
state — including one whose file was never created or already removed — and
a second call is a no-op, returning the same state and disk. -/
theorem C7_stop_idempotent (st : ProgressFfmpeg) (disk : List String) :
    (ProgressFfmpeg.stop st disk).1.stop_event = true
    ∧ (ProgressFfmpeg.stop st disk).1.output_file = none
    ∧ (∀ name, st.output_file = some name →
        name ∉ (ProgressFfmpeg.stop st disk).2)
    ∧ ProgressFfmpeg.stop (ProgressFfmpeg.stop st disk).1
        (ProgressFfmpeg.stop st disk).2 = ProgressFfmpeg.stop st disk := by
  obtain ⟨ev, file⟩ := st
  cases file with
  | none =>
    refine ⟨rfl, rfl, ?_, rfl⟩
    intro name h
    exact absurd h (by simp)
  | some nm =>
    refine ⟨rfl, rfl, ?_, rfl⟩
    intro name h
    simp only [Option.some.injEq] at h
    subst h
    simp [ProgressFfmpeg.stop, List.mem_filter]

theorem C7_stop_idempotent_witness :
    "progress.txt" ∉
      (ProgressFfmpeg.stop
        { stop_event := false, output_file := some "progress.txt" }
        ["progress.txt", "audio.mp3"]).2 :=
  (C7_stop_idempotent
    { stop_event := false, output_file := some "progress.txt" }
    ["progress.txt", "audio.mp3"]).2.2.1 "progress.txt" rfl

/-!
Background catalog selection: background.py, get_background_config
(lines 67-95). The loaded catalog background_options[mode] is a Python dict,
modelled as an association list with its key order; the configured name
(already casefolded, line 70) is an Option String, none standing for the
KeyError / AttributeError path where the setting is absent. random.choice
over the key list is modelled by a seed r selecting index r % len(keys).
Looking a key up in the dict is List.lookup.
-/

def get_background_config {α : Type} (choice : Option String)
    (background_options : List (String × α)) (r : ℕ) : Except String α :=
  let keys := background_options.map Prod.fst
  let falsy : Bool :=
    match choice with
    | none => true
    | some c => decide (c = "")
  let in_options : Bool :=
    match choice with
    | none => false
    | some c => keys.contains c
  if falsy || !in_options then
    if keys = [] then
      Except.error "No background options available. Check background JSON files."
    else
      match List.lookup (keys.getD (r % keys.length) "") background_options with
      | some cfg => Except.ok cfg
      | none => Except.error "KeyError"
  else
    match choice with
    | some c =>
      match List.lookup c background_options with
      | some cfg => Except.ok cfg
      | none => Except.error "KeyError"
    | none => Except.error "KeyError"

lemma lookup_isSome_of_mem_keys {α : Type} (k : String)
    (ps : List (String × α)) (h : k ∈ ps.map Prod.fst) :
    ∃ v, List.lookup k ps = some v := by
  induction ps with
  | nil => simp at h
  | cons p t ih =>
    obtain ⟨a, b⟩ := p
    by_cases hk : k = a
    · exact ⟨b, by simp [List.lookup, hk]⟩
    · have hmem : k ∈ t.map Prod.fst := by
        simp only [List.map_cons, List.mem_cons] at h
        exact h.resolve_left hk
      obtain ⟨v, hv⟩ := ih hmem
      have hba : (k == a) = false := beq_eq_false_iff_ne.mpr hk
      exact ⟨v, by simp [List.lookup, hba, hv]⟩

lemma lookup_get_of_nodup {α : Type} (ps : List (String × α))
    (hnd : (ps.map Prod.fst).Nodup) :
    ∀ i (hi : i < ps.length),
      List.lookup (ps.get ⟨i, hi⟩).1 ps = some (ps.get ⟨i, hi⟩).2 := by
  induction ps with
  | nil => intro i hi; simp at hi
  | cons p t ih =>
    intro i hi
    obtain ⟨a, b⟩ := p
    simp only [List.map_cons, List.nodup_cons] at hnd
    cases i with
    | zero => simp [List.lookup]
    | succ j =>
      have hj : j < t.length := by simpa using hi
      have hmem : t[j].1 ∈ t.map Prod.fst :=
        List.mem_map_of_mem Prod.fst (List.getElem_mem hj)
      have hne : t[j].1 ≠ a := fun heq => hnd.1 (heq ▸ hmem)
      have hba : (t[j].1 == a) = false := beq_eq_false_iff_ne.mpr hne
      have := ih hnd.2 j hj
      simpa [List.lookup, hba] using this

lemma get_background_config_fallback {α : Type} (choice : Option String)
    (catalog : List (String × α)) (r : ℕ)
    (hfall : choice = none ∨ choice = some "" ∨
      (∀ c, choice = some c → (catalog.map Prod.fst).contains c = false))
    (hne : catalog ≠ []) :
    get_background_config choice catalog r =
      match List.lookup ((catalog.map Prod.fst).getD
          (r % (catalog.map Prod.fst).length) "") catalog with
      | some cfg => Except.ok cfg
      | none => Except.error "KeyError" := by
  have hkeys : catalog.map Prod.fst ≠ [] := by simpa using hne
  rcases hfall with h | h | h
  · subst h
    simp [get_background_config, hkeys]
  · subst h
    simp [get_background_config, hkeys]
  · cases choice with
    | none => simp [get_background_config, hkeys]
    | some c =>
      have hc := h c rfl
      simp only [get_background_config, hkeys, hc]
      simp [hkeys]

lemma keys_getD_lt {α : Type} (catalog : List (String × α)) (i : ℕ)
    (hi : i < catalog.length) :
    (catalog.map Prod.fst).getD i "" = (catalog.get ⟨i, hi⟩).1 := by
  have hi2 : i < (catalog.map Prod.fst).length := by simpa using hi
  rw [List.getD_eq_getElem?_getD, List.getElem?_eq_getElem hi2]
  simp

/-- Claim C9: get_background_config succeeds, falling back to a random
catalog entry when the configured name is unset, empty, or not a catalog
key, and raises a ValueError exactly when the catalog for the mode is
empty; under the fallback every catalog entry is selected by some seed
(seed i yields entry i). -/
theorem C9_background_fallback (choice : Option String)
    (catalog : List (String × ℕ)) (r : ℕ) :
    ((∃ cfg, get_background_config choice catalog r = Except.ok cfg)
      ↔ catalog ≠ [])
    ∧ ((catalog.map Prod.fst).Nodup →
        (choice = none ∨ choice = some "" ∨
          (∀ c, choice = some c → (catalog.map Prod.fst).contains c = false)) →
        ∀ i (hi : i < catalog.length),
          get_background_config choice catalog i
            = Except.ok (catalog.get ⟨i, hi⟩).2) := by
  constructor
  · constructor
    · rintro ⟨cfg, hcfg⟩ hnil
      subst hnil
      cases choice with
      | none => simp [get_background_config] at hcfg
      | some c => simp [get_background_config] at hcfg
    · intro hne
      have hlen : 0 < catalog.length := List.length_pos.mpr hne
      have hkeyslen : 0 < (catalog.map Prod.fst).length := by simpa using hlen
      have hfallback :
          (choice = none ∨ choice = some "" ∨
            (∀ c, choice = some c →
              (catalog.map Prod.fst).contains c = false)) →
          ∃ cfg, get_background_config choice catalog r = Except.ok cfg := by
        intro hfall
        have hkey : (catalog.map Prod.fst).getD
            (r % (catalog.map Prod.fst).length) "" ∈ catalog.map Prod.fst := by
          have hmod : r % (catalog.map Prod.fst).length
              < (catalog.map Prod.fst).length := Nat.mod_lt _ hkeyslen
          rw [List.getD_eq_getElem?_getD, List.getElem?_eq_getElem hmod]
          exact List.getElem_mem hmod
        obtain ⟨v, hv⟩ := lookup_isSome_of_mem_keys _ catalog hkey
        refine ⟨v, ?_⟩
        rw [get_background_config_fallback choice catalog r hfall hne, hv]
      cases choice with
      | none => exact hfallback (Or.inl rfl)
      | some c =>
        by_cases hc : c = ""
        · exact hfallback (Or.inr (Or.inl (by rw [hc])))
        · by_cases hin : (catalog.map Prod.fst).contains c = true
          · have hmem : c ∈ catalog.map Prod.fst := by
              simpa using hin
            obtain ⟨v, hv⟩ := lookup_isSome_of_mem_keys c catalog hmem
            refine ⟨v, ?_⟩
            simp [get_background_config, hc, hin, hv]
            intro hnot
            obtain ⟨p, hp, hfst⟩ := List.mem_map.mp hmem
            have hpeq : p = (c, p.2) := Prod.ext_iff.mpr ⟨hfst, rfl⟩
            exact absurd (hpeq ▸ hp) (hnot p.2)
          · have hin2 : (catalog.map Prod.fst).contains c = false := by
              simpa using hin
            exact hfallback (Or.inr (Or.inr (fun d hd => by
              injection hd with hd2
              rw [← hd2]; exact hin2)))
  · intro hnd hfall i hi
    have hne : catalog ≠ [] := by
      intro hnil
      rw [hnil] at hi
      simp at hi
    rw [get_background_config_fallback choice catalog i hfall hne]
    have hmod : i % (catalog.map Prod.fst).length = i := by
      apply Nat.mod_eq_of_lt
      simpa using hi
    rw [hmod, keys_getD_lt catalog i hi, lookup_get_of_nodup catalog hnd i hi]

theorem C9_background_fallback_witness :
    get_background_config (some "motor gta") [("minecraft", 7), ("gta", 9)] 1
      = Except.ok 9 :=
  (C9_background_fallback (some "motor gta") [("minecraft", 7), ("gta", 9)] 1).2
    (by decide)
    (Or.inr (Or.inr (fun c hc => by injection hc with h2; rw [← h2]; decide)))
    1 (by norm_num)
